import Mathlib

/-!
Verification of the request-coalescing engine of the hcloud Grafana
datasource (package `plugin`, files `query_runner.go` and `datasource.go`).

The Go code is shallowly embedded:
* `time.Time` instants and `time.Duration` values are modelled as `Int`
  (nanoseconds, the underlying representation in Go);
* Go pointers (`*M`) are modelled as `Option M`, `nil` being `none`;
* Go `error` values are modelled as `Option String` (`nil` = `none`);
* Go maps are modelled as association lists; the arbitrary iteration
  order of a Go map is fixed to insertion order, which is irrelevant to
  the stated theorems (they are order independent);
* channels are identified by a numeric tag, and a send on a channel is
  recorded as a `(tag, message)` pair in an output list.
-/

namespace Plugin

/-- MetricsType is a string enum in the source (`type MetricsType string`). -/
abbrev MetricsType := String

/-- Embedding of `backend.TimeRange`: two instants, nanoseconds since epoch.
Instants are compared bit exactly in the source (`==` on `time.Time`). -/
structure TimeRange where
  timeFrom : Int
  timeTo : Int
deriving DecidableEq

/-- Embedding of `RequestOpts` from `query_runner.go`. -/
structure RequestOpts where
  MetricsTypes : List MetricsType
  TimeRange : TimeRange
  Step : Int
deriving DecidableEq

/-! ## stepSize (datasource.go, lines 338-352)

The Go function works on `time.Duration` (integer nanoseconds) and
converts through `float64` seconds before flooring.  At every input the
theorems below touch, the float computation is exact, so the embedding
uses exact floored integer division (`Int.fdiv`). -/

/-- Embedding of `stepSize` from `datasource.go`.  `interval` is a
duration in nanoseconds, mirroring `time.Duration`.
Go source:
  step := int(math.Floor(interval.Seconds()))
  if int64(step) > maxDataPoints \x7b
    maxInterval := timeRange.Duration().Seconds() / float64(maxDataPoints)
    step = int(math.Floor(maxInterval))
  \x7d
  if step < 1 \x7b step = 1 \x7d
  return step -/
def stepSize (timeRange : TimeRange) (interval : Int) (maxDataPoints : Int) : Int :=
  let step := Int.fdiv interval 1000000000
  let step :=
    if step > maxDataPoints then
      Int.fdiv (timeRange.timeTo - timeRange.timeFrom) (1000000000 * maxDataPoints)
    else
      step
  if step < 1 then 1 else step

/-- Modelled from the spec: the step-size computation as section 4.4 of the
spec describes it, for comparison with the `stepSize` of the source.  The
spec recomputes the step whenever the number of points implied by the
first step, `ceil(duration / step)`, exceeds the point budget; the source
instead compares the step itself against the budget. -/
def stepSizeSpec (timeRange : TimeRange) (interval : Int) (maxDataPoints : Int) : Int :=
  let step := Int.fdiv interval 1000000000
  let duration := timeRange.timeTo - timeRange.timeFrom
  let impliedPoints := -(Int.fdiv (-duration) (step * 1000000000))
  let step :=
    if impliedPoints > maxDataPoints then
      Int.fdiv duration (1000000000 * maxDataPoints)
    else
      step
  if step < 1 then 1 else step

/-! ## matches (query_runner.go, lines 253-266) -/

/-- Embedding of `RequestOpts.matches`: a response to `r` can fully
satisfy `other`.  Mirrors the Go body: exact time-range equality, exact
step equality, and containment of the requested metric types of `other`
in those of `r`. -/
def RequestOpts.matches (r other : RequestOpts) : Bool :=
  let timeRangeMatches :=
    r.TimeRange.timeFrom == other.TimeRange.timeFrom &&
      r.TimeRange.timeTo == other.TimeRange.timeTo
  let stepMatches := r.Step == other.Step
  let typesMatch :=
    other.MetricsTypes.all (fun metricsType => r.MetricsTypes.contains metricsType)
  timeRangeMatches && stepMatches && typesMatch

/-! ## uniqueRequests (query_runner.go, lines 216-250)

The Go function accumulates, per `(timeRange, step)` key, a
`set.Set[MetricsType]` (a Go map used as a set, `pkg/set`).  The set is
modelled as a duplicate-free list in insertion order; `Insert` appends
the elements that are not yet present, and the `ToSlice`-then-
`slices.Sort` step at the end is the sort of that list. -/

/-- Embedding of the anonymous `key` struct of `uniqueRequests`. -/
structure BucketKey where
  timeRange : TimeRange
  step : Int
deriving DecidableEq

/-- The bucket key of a request: its time range together with its step. -/
def RequestOpts.key (r : RequestOpts) : BucketKey :=
  ⟨r.TimeRange, r.Step⟩

/-- Embedding of `set.Set.Insert` for one element: a Go map used as a
set keeps one copy of each element. -/
def setInsertOne (s : List MetricsType) (x : MetricsType) : List MetricsType :=
  if x ∈ s then s else s ++ [x]

/-- Embedding of `set.Set.Insert` for a list of elements. -/
def setInsert (s : List MetricsType) (xs : List MetricsType) : List MetricsType :=
  xs.foldl setInsertOne s

/-- One iteration of the accumulation loop of `uniqueRequests`: look up
the bucket of key `k` (creating an empty set if absent, as
`unique[k] = set.New()` does) and insert the metric types `ts` into it. -/
def uniqueInsert (k : BucketKey) (ts : List MetricsType) :
    List (BucketKey × List MetricsType) → List (BucketKey × List MetricsType)
  | [] => [(k, setInsert [] ts)]
  | (k2, s) :: rest =>
    if k2 = k then (k2, setInsert s ts) :: rest
    else (k2, s) :: uniqueInsert k ts rest

theorem uniqueInsert_cons_eq {k k2 : BucketKey} (h : k2 = k) (ts s : List MetricsType)
    (rest : List (BucketKey × List MetricsType)) :
    uniqueInsert k ts ((k2, s) :: rest) = (k2, setInsert s ts) :: rest := by
  simp [uniqueInsert, h]

theorem uniqueInsert_cons_ne {k k2 : BucketKey} (h : k2 ≠ k) (ts s : List MetricsType)
    (rest : List (BucketKey × List MetricsType)) :
    uniqueInsert k ts ((k2, s) :: rest) = (k2, s) :: uniqueInsert k ts rest := by
  simp [uniqueInsert, h]

/-- The `unique` map of `uniqueRequests` after the accumulation loop. -/
def buildUnique (requests : List RequestOpts) : List (BucketKey × List MetricsType) :=
  requests.foldl (fun u req => uniqueInsert req.key req.MetricsTypes u) []

/-- Embedding of `uniqueRequests`: deduplicate requests by combining
requests with the same time range and step; all metric types are added
together, then sorted (`slices.Sort`, modelled as an insertion sort by
the lexicographic string order). -/
def uniqueRequests (requests : List RequestOpts) : List RequestOpts :=
  (buildUnique requests).map fun p =>
    { MetricsTypes := List.insertionSort (fun a b => a.data ≤ b.data) p.2,
      TimeRange := p.1.timeRange,
      Step := p.1.step }

instance : IsTotal MetricsType (fun a b => a.data ≤ b.data) :=
  ⟨fun a b => le_total a.data b.data⟩

instance : IsTrans MetricsType (fun a b => a.data ≤ b.data) :=
  ⟨fun _ _ _ => le_trans⟩

/-- The keys of an association list. -/
def keysOf (u : List (BucketKey × List MetricsType)) : List BucketKey :=
  u.map Prod.fst

/-- First value stored under a key, or the empty set if the key is absent. -/
def bucketOf : List (BucketKey × List MetricsType) → BucketKey → List MetricsType
  | [], _ => []
  | (k2, s) :: rest, k => if k2 = k then s else bucketOf rest k

theorem mem_setInsertOne {s : List MetricsType} {x a : MetricsType} :
    a ∈ setInsertOne s x ↔ a ∈ s ∨ a = x := by
  unfold setInsertOne
  split <;> rename_i h
  · constructor
    · exact Or.inl
    · rintro (h2 | rfl)
      · exact h2
      · exact h
  · simp

theorem mem_setInsert {s xs : List MetricsType} {a : MetricsType} :
    a ∈ setInsert s xs ↔ a ∈ s ∨ a ∈ xs := by
  induction xs generalizing s with
  | nil => simp [setInsert]
  | cons x xs ih =>
    show a ∈ setInsert (setInsertOne s x) xs ↔ _
    rw [ih, mem_setInsertOne]
    simp only [List.mem_cons]
    tauto

theorem nodup_setInsertOne {s : List MetricsType} {x : MetricsType} (h : s.Nodup) :
    (setInsertOne s x).Nodup := by
  unfold setInsertOne
  split <;> rename_i hmem
  · exact h
  · rw [List.nodup_append]
    refine ⟨h, List.nodup_singleton x, ?_⟩
    intro a ha hax
    rw [List.mem_singleton] at hax
    subst hax
    exact hmem ha

theorem nodup_setInsert {s xs : List MetricsType} (h : s.Nodup) :
    (setInsert s xs).Nodup := by
  induction xs generalizing s with
  | nil => exact h
  | cons x xs ih => exact ih (nodup_setInsertOne h)

theorem keysOf_uniqueInsert (k : BucketKey) (ts : List MetricsType)
    (u : List (BucketKey × List MetricsType)) :
    keysOf (uniqueInsert k ts u) =
      if k ∈ keysOf u then keysOf u else keysOf u ++ [k] := by
  induction u with
  | nil => simp [uniqueInsert, keysOf]
  | cons p rest ih =>
    obtain ⟨k2, s⟩ := p
    by_cases hk : k2 = k
    · subst hk
      simp [uniqueInsert, keysOf]
    · simp only [uniqueInsert, if_neg hk, keysOf, List.map_cons] at ih ⊢
      rw [ih]
      have : k ∈ k2 :: rest.map Prod.fst ↔ k ∈ rest.map Prod.fst := by
        simp [Ne.symm hk]
      by_cases hmem : k ∈ rest.map Prod.fst <;> simp [hmem, this]

theorem nodup_keysOf_uniqueInsert {k : BucketKey} {ts : List MetricsType}
    {u : List (BucketKey × List MetricsType)} (h : (keysOf u).Nodup) :
    (keysOf (uniqueInsert k ts u)).Nodup := by
  rw [keysOf_uniqueInsert]
  split <;> rename_i hmem
  · exact h
  · simp [List.nodup_append, h, hmem]

theorem bucketOf_uniqueInsert_same (k : BucketKey) (ts : List MetricsType)
    (u : List (BucketKey × List MetricsType)) :
    bucketOf (uniqueInsert k ts u) k = setInsert (bucketOf u k) ts := by
  induction u with
  | nil => simp [uniqueInsert, bucketOf]
  | cons p rest ih =>
    obtain ⟨k2, s⟩ := p
    by_cases hk : k2 = k
    · subst hk
      simp [uniqueInsert, bucketOf]
    · simp [uniqueInsert, bucketOf, hk, ih]

theorem bucketOf_uniqueInsert_ne {k k2 : BucketKey} (hne : k2 ≠ k)
    (ts : List MetricsType) (u : List (BucketKey × List MetricsType)) :
    bucketOf (uniqueInsert k ts u) k2 = bucketOf u k2 := by
  induction u with
  | nil => simp [uniqueInsert, bucketOf, Ne.symm hne]
  | cons p rest ih =>
    obtain ⟨k3, s⟩ := p
    by_cases hk : k3 = k
    · subst hk
      have hk32 : k3 ≠ k2 := fun h => hne h.symm
      simp [uniqueInsert, bucketOf, hk32]
    · by_cases hk2 : k3 = k2
      · subst hk2
        simp [uniqueInsert, bucketOf, hk]
      · simp [uniqueInsert, bucketOf, hk, hk2, ih]

/-- The accumulation loop of `uniqueRequests`, with an explicit
accumulator for the induction. -/
def buildUniqueFrom (u : List (BucketKey × List MetricsType))
    (requests : List RequestOpts) : List (BucketKey × List MetricsType) :=
  requests.foldl (fun u req => uniqueInsert req.key req.MetricsTypes u) u

theorem buildUnique_eq_from (requests : List RequestOpts) :
    buildUnique requests = buildUniqueFrom [] requests := rfl

theorem mem_bucketOf_buildUniqueFrom (u : List (BucketKey × List MetricsType))
    (requests : List RequestOpts) (k : BucketKey) (t : MetricsType) :
    t ∈ bucketOf (buildUniqueFrom u requests) k ↔
      t ∈ bucketOf u k ∨ ∃ r ∈ requests, r.key = k ∧ t ∈ r.MetricsTypes := by
  induction requests generalizing u with
  | nil => simp [buildUniqueFrom]
  | cons r rest ih =>
    show t ∈ bucketOf (buildUniqueFrom (uniqueInsert r.key r.MetricsTypes u) rest) k ↔ _
    rw [ih]
    by_cases hk : r.key = k
    · subst hk
      rw [bucketOf_uniqueInsert_same, mem_setInsert]
      simp only [List.mem_cons]
      constructor
      · rintro ((h | h) | h)
        · exact Or.inl h
        · exact Or.inr ⟨r, Or.inl rfl, rfl, h⟩
        · obtain ⟨r2, hr2, hkey, ht⟩ := h
          exact Or.inr ⟨r2, Or.inr hr2, hkey, ht⟩
      · rintro (h | ⟨r2, (hr2 | hr2), hkey, ht⟩)
        · exact Or.inl (Or.inl h)
        · subst hr2
          exact Or.inl (Or.inr ht)
        · exact Or.inr ⟨r2, hr2, hkey, ht⟩
    · rw [bucketOf_uniqueInsert_ne (fun h => hk h.symm)]
      simp only [List.mem_cons]
      constructor
      · rintro (h | ⟨r2, hr2, hkey, ht⟩)
        · exact Or.inl h
        · exact Or.inr ⟨r2, Or.inr hr2, hkey, ht⟩
      · rintro (h | ⟨r2, (hr2 | hr2), hkey, ht⟩)
        · exact Or.inl h
        · subst hr2
          exact absurd hkey hk
        · exact Or.inr ⟨r2, hr2, hkey, ht⟩

theorem mem_keysOf_buildUniqueFrom (u : List (BucketKey × List MetricsType))
    (requests : List RequestOpts) (k : BucketKey) :
    k ∈ keysOf (buildUniqueFrom u requests) ↔
      k ∈ keysOf u ∨ ∃ r ∈ requests, r.key = k := by
  induction requests generalizing u with
  | nil => simp [buildUniqueFrom]
  | cons r rest ih =>
    show k ∈ keysOf (buildUniqueFrom (uniqueInsert r.key r.MetricsTypes u) rest) ↔ _
    rw [ih, keysOf_uniqueInsert]
    by_cases hmem : r.key ∈ keysOf u
    · rw [if_pos hmem]
      constructor
      · rintro (h | ⟨r2, h2, hk2⟩)
        · exact Or.inl h
        · exact Or.inr ⟨r2, List.mem_cons_of_mem _ h2, hk2⟩
      · rintro (h | ⟨r2, h2, hk2⟩)
        · exact Or.inl h
        · rcases List.mem_cons.1 h2 with rfl | h2
          · exact Or.inl (hk2 ▸ hmem)
          · exact Or.inr ⟨r2, h2, hk2⟩
    · rw [if_neg hmem, List.mem_append, List.mem_singleton]
      constructor
      · rintro ((h | h) | ⟨r2, h2, hk2⟩)
        · exact Or.inl h
        · exact Or.inr ⟨r, List.mem_cons_self _ _, h.symm⟩
        · exact Or.inr ⟨r2, List.mem_cons_of_mem _ h2, hk2⟩
      · rintro (h | ⟨r2, h2, hk2⟩)
        · exact Or.inl (Or.inl h)
        · rcases List.mem_cons.1 h2 with rfl | h2
          · exact Or.inl (Or.inr hk2.symm)
          · exact Or.inr ⟨r2, h2, hk2⟩

theorem nodup_keysOf_buildUniqueFrom (u : List (BucketKey × List MetricsType))
    (requests : List RequestOpts) (h : (keysOf u).Nodup) :
    (keysOf (buildUniqueFrom u requests)).Nodup := by
  induction requests generalizing u with
  | nil => exact h
  | cons r rest ih => exact ih _ (nodup_keysOf_uniqueInsert h)

theorem nodup_values_uniqueInsert {k : BucketKey} {ts : List MetricsType}
    {u : List (BucketKey × List MetricsType)} (h : ∀ p ∈ u, (p.2 : List MetricsType).Nodup) :
    ∀ p ∈ uniqueInsert k ts u, (p.2 : List MetricsType).Nodup := by
  induction u with
  | nil =>
    intro p hp
    simp only [uniqueInsert, List.mem_singleton] at hp
    subst hp
    exact nodup_setInsert (List.nodup_nil)
  | cons q rest ih =>
    obtain ⟨k2, s⟩ := q
    intro p hp
    by_cases hk : k2 = k
    · rw [uniqueInsert_cons_eq hk, List.mem_cons] at hp
      rcases hp with hp | hp
      · subst hp
        exact nodup_setInsert (h _ (List.mem_cons_self _ _))
      · exact h _ (List.mem_cons_of_mem _ hp)
    · rw [uniqueInsert_cons_ne hk, List.mem_cons] at hp
      rcases hp with hp | hp
      · subst hp
        exact h _ (List.mem_cons_self _ _)
      · exact ih (fun q hq => h _ (List.mem_cons_of_mem _ hq)) _ hp

theorem nodup_values_buildUniqueFrom (u : List (BucketKey × List MetricsType))
    (requests : List RequestOpts) (h : ∀ p ∈ u, (p.2 : List MetricsType).Nodup) :
    ∀ p ∈ buildUniqueFrom u requests, (p.2 : List MetricsType).Nodup := by
  induction requests generalizing u with
  | nil => exact h
  | cons r rest ih => exact ih _ (nodup_values_uniqueInsert h)

theorem bucketOf_eq_of_mem {u : List (BucketKey × List MetricsType)}
    {k : BucketKey} {s : List MetricsType} (hn : (keysOf u).Nodup)
    (hmem : (k, s) ∈ u) : bucketOf u k = s := by
  induction u with
  | nil => simp at hmem
  | cons p rest ih =>
    obtain ⟨k2, s2⟩ := p
    simp only [List.mem_cons, Prod.mk.injEq] at hmem
    simp only [keysOf, List.map_cons, List.nodup_cons] at hn
    rcases hmem with ⟨hk, hs⟩ | hmem
    · subst hk hs
      simp [bucketOf]
    · have hne : k2 ≠ k := by
        intro h
        subst h
        exact hn.1 (List.mem_map.2 ⟨(k2, s), hmem, rfl⟩)
      simp only [bucketOf, if_neg hne]
      exact ih hn.2 hmem

theorem uniqueRequests_map_key (requests : List RequestOpts) :
    (uniqueRequests requests).map RequestOpts.key = keysOf (buildUnique requests) := by
  unfold uniqueRequests keysOf
  rw [List.map_map]
  rfl

theorem nodup_keysOf_buildUnique (requests : List RequestOpts) :
    (keysOf (buildUnique requests)).Nodup := by
  rw [buildUnique_eq_from]
  exact nodup_keysOf_buildUniqueFrom [] requests (by simp [keysOf])

theorem nodup_map_key_uniqueRequests (requests : List RequestOpts) :
    ((uniqueRequests requests).map RequestOpts.key).Nodup := by
  rw [uniqueRequests_map_key]
  exact nodup_keysOf_buildUnique requests

theorem mem_key_uniqueRequests_iff (requests : List RequestOpts) (k : BucketKey) :
    (∃ o ∈ uniqueRequests requests, o.key = k) ↔ ∃ r ∈ requests, r.key = k := by
  have hx : (∃ o ∈ uniqueRequests requests, o.key = k) ↔
      k ∈ keysOf (buildUnique requests) := by
    constructor
    · rintro ⟨o, ho, rfl⟩
      rw [← uniqueRequests_map_key]
      exact List.mem_map.2 ⟨o, ho, rfl⟩
    · intro hk
      rw [← uniqueRequests_map_key] at hk
      obtain ⟨o, ho, hko⟩ := List.mem_map.1 hk
      exact ⟨o, ho, hko⟩
  rw [hx, buildUnique_eq_from, mem_keysOf_buildUniqueFrom]
  simp [keysOf]

theorem uniqueRequests_elem_spec {requests : List RequestOpts} {o : RequestOpts}
    (ho : o ∈ uniqueRequests requests) :
    o.MetricsTypes.Sorted (fun a b => a.data ≤ b.data) ∧ o.MetricsTypes.Nodup ∧
      ∀ t : MetricsType,
        t ∈ o.MetricsTypes ↔ ∃ r ∈ requests, r.key = o.key ∧ t ∈ r.MetricsTypes := by
  obtain ⟨p, hp, rfl⟩ := List.mem_map.1 ho
  have hkey : (RequestOpts.key
      { MetricsTypes := List.insertionSort (fun a b => a.data ≤ b.data) p.2,
        TimeRange := p.1.timeRange, Step := p.1.step }) = p.1 := rfl
  have hperm := List.perm_insertionSort (fun a b : MetricsType => a.data ≤ b.data) p.2
  have hnodup : (p.2 : List MetricsType).Nodup := by
    rw [buildUnique_eq_from] at hp
    exact nodup_values_buildUniqueFrom [] requests (by simp) p hp
  have hbucket : bucketOf (buildUnique requests) p.1 = p.2 := by
    obtain ⟨k2, s⟩ := p
    exact bucketOf_eq_of_mem (nodup_keysOf_buildUnique requests) hp
  refine ⟨List.sorted_insertionSort _ _, hperm.nodup_iff.2 hnodup, ?_⟩
  intro t
  show t ∈ List.insertionSort (fun a b => a.data ≤ b.data) p.2 ↔ _
  rw [hperm.mem_iff, hkey, ← hbucket, buildUnique_eq_from,
    mem_bucketOf_buildUniqueFrom]
  simp [bucketOf]

/-- C3: for every list of RequestOpts, uniqueRequests returns exactly one
output element per distinct (TimeRange, Step) pair occurring in the input
(the bucket keys of the output are duplicate free, and a bucket key occurs
in the output exactly when it occurs in the input), and the MetricsTypes
of each output element is the deduplicated union of the MetricsTypes of
all input elements with that pair, sorted into the lexicographic string
order. -/
theorem uniqueRequests_dedup_union (requests : List RequestOpts) :
    ((uniqueRequests requests).map RequestOpts.key).Nodup ∧
      (∀ k : BucketKey,
        (∃ o ∈ uniqueRequests requests, o.key = k) ↔ ∃ r ∈ requests, r.key = k) ∧
      ∀ o ∈ uniqueRequests requests,
        o.MetricsTypes.Sorted (fun a b => a.data ≤ b.data) ∧ o.MetricsTypes.Nodup ∧
          ∀ t : MetricsType,
            t ∈ o.MetricsTypes ↔ ∃ r ∈ requests, r.key = o.key ∧ t ∈ r.MetricsTypes :=
  ⟨nodup_map_key_uniqueRequests requests,
    mem_key_uniqueRequests_iff requests,
    fun _ ho => uniqueRequests_elem_spec ho⟩

/-! ## The pending-request queue (query_runner.go, QueryRunner.requests)

The queue `requests map[int64][]request[M]` is modelled as an
association list from resource id to the slice of pending requests;
faithfulness of the map model needs the keys to be duplicate free, which
is a hypothesis of the theorems below.  A channel is modelled by a
numeric tag; a send on it is recorded as a `(tag, message)` pair. -/

/-- Embedding of the `request[M]` struct: the request options plus the
identity of the response channel. -/
structure Request (M : Type) where
  opts : RequestOpts
  responseCh : Nat
deriving DecidableEq

/-- Embedding of the `response[M]` struct.  `metrics` is a `*M` pointer
(`none` is the nil pointer) and `err` a Go error (`none` is nil). -/
structure Response (M : Type) where
  id : Int
  opts : RequestOpts
  metrics : Option M
  err : Option String
deriving DecidableEq

/-- The pending-request queue `map[int64][]request[M]`. -/
abbrev Requests (M : Type) := List (Int × List (Request M))

/-- The outbound calls a dispatch round issues, as computed by the first
half of `sendRequests` from the snapshot of the pending queue: per
resource id the options of all pending requests are collected, and
`uniqueRequests` reduces them; every surviving (id, opts) pair is one
upstream call (`allRequests` in the source). -/
def sendRequestsCalls {M : Type} (requests : Requests M) : List (Int × RequestOpts) :=
  requests.flatMap fun p => (uniqueRequests (p.2.map Request.opts)).map fun opts => (p.1, opts)

theorem mem_sendRequestsCalls {M : Type} {requests : Requests M}
    {c : Int × RequestOpts} :
    c ∈ sendRequestsCalls requests ↔
      ∃ p ∈ requests, c.1 = p.1 ∧ c.2 ∈ uniqueRequests (p.2.map Request.opts) := by
  unfold sendRequestsCalls
  rw [List.mem_flatMap]
  constructor
  · rintro ⟨p, hp, hc⟩
    obtain ⟨opts, hopts, hco⟩ := List.mem_map.1 hc
    exact ⟨p, hp, by rw [← hco], by rw [← hco]; exact hopts⟩
  · rintro ⟨p, hp, h1, h2⟩
    exact ⟨p, hp, List.mem_map.2 ⟨c.2, h2, by rw [← h1]⟩⟩

theorem countP_key_le_one {l : List RequestOpts} (h : (l.map RequestOpts.key).Nodup)
    (k : BucketKey) : l.countP (fun o => decide (o.key = k)) ≤ 1 := by
  induction l with
  | nil => simp
  | cons o rest ih =>
    rw [List.map_cons, List.nodup_cons] at h
    by_cases hk : o.key = k
    · rw [List.countP_cons_of_pos _ _ (by simpa using hk)]
      have hzero : rest.countP (fun o => decide (o.key = k)) = 0 := by
        rw [List.countP_eq_zero]
        intro o2 ho2
        simp only [decide_eq_true_eq]
        intro hk2
        exact h.1 (List.mem_map.2 ⟨o2, ho2, by rw [hk2, hk]⟩)
      omega
    · rw [List.countP_cons_of_neg _ _ (by simpa using hk)]
      exact ih h.2

theorem eq_of_mem_fst_eq {M : Type} {requests : Requests M}
    (h : (requests.map Prod.fst).Nodup) {p q : Int × List (Request M)}
    (hp : p ∈ requests) (hq : q ∈ requests) (hfst : p.1 = q.1) : p = q := by
  induction requests with
  | nil => simp at hp
  | cons r rest ih =>
    rw [List.map_cons, List.nodup_cons] at h
    rcases List.mem_cons.1 hp with rfl | hp2 <;>
      rcases List.mem_cons.1 hq with rfl | hq2
    · rfl
    · exact absurd (List.mem_map.2 ⟨q, hq2, hfst.symm⟩) h.1
    · exact absurd (List.mem_map.2 ⟨p, hp2, hfst⟩) h.1
    · exact ih h.2 hp2 hq2

/-- C1: in one dispatch round, the calls computed from the snapshot of the
pending queue contain at most one call per distinct (ResourceID,
TimeRange, Step) triple, and the metric-type set of a call with that
triple is the union of the MetricsTypes of all pending requests for the
triple. -/
theorem sendRequests_coalesces {M : Type} (requests : Requests M)
    (h : (requests.map Prod.fst).Nodup) (id : Int) (k : BucketKey) :
    ((sendRequestsCalls requests).countP
        (fun c => decide (c.1 = id ∧ c.2.key = k))) ≤ 1 ∧
      ∀ c ∈ sendRequestsCalls requests, c.1 = id → c.2.key = k →
        ∀ t : MetricsType,
          t ∈ c.2.MetricsTypes ↔
            ∃ p ∈ requests, p.1 = id ∧
              ∃ req ∈ p.2, (Request.opts req).key = k ∧
                t ∈ (Request.opts req).MetricsTypes := by
  constructor
  · induction requests with
    | nil => simp [sendRequestsCalls]
    | cons p rest ih =>
      have hcons :
          sendRequestsCalls (p :: rest) =
            ((uniqueRequests (p.2.map Request.opts)).map fun opts => (p.1, opts)) ++
              sendRequestsCalls rest := by
        simp [sendRequestsCalls]
      rw [List.map_cons, List.nodup_cons] at h
      rw [hcons, List.countP_append]
      by_cases hid : p.1 = id
      · have hrest : (sendRequestsCalls rest).countP
            (fun c => decide (c.1 = id ∧ c.2.key = k)) = 0 := by
          rw [List.countP_eq_zero]
          intro c hc
          simp only [decide_eq_true_eq, not_and]
          intro hcid
          obtain ⟨q, hq, hcq, _⟩ := mem_sendRequestsCalls.1 hc
          exact absurd (List.mem_map.2 ⟨q, hq, by rw [← hcq, hcid, hid]⟩) h.1
        have hmap : ((uniqueRequests (p.2.map Request.opts)).map
              fun opts => (p.1, opts)).countP
            (fun c => decide (c.1 = id ∧ c.2.key = k)) =
            (uniqueRequests (p.2.map Request.opts)).countP
              (fun o => decide (o.key = k)) := by
          rw [List.countP_map]
          apply List.countP_congr
          intro o _
          simp [Function.comp, hid]
        rw [hrest, hmap]
        have := countP_key_le_one (nodup_map_key_uniqueRequests (p.2.map Request.opts)) k
        omega
      · have hmap : ((uniqueRequests (p.2.map Request.opts)).map
              fun opts => (p.1, opts)).countP
            (fun c => decide (c.1 = id ∧ c.2.key = k)) = 0 := by
          rw [List.countP_map, List.countP_eq_zero]
          intro o _
          simp [Function.comp, hid]
        rw [hmap]
        simpa using ih h.2
  · intro c hc hcid hck t
    obtain ⟨p, hp, hcp, hcu⟩ := mem_sendRequestsCalls.1 hc
    have hspec := (uniqueRequests_elem_spec hcu).2.2 t
    rw [hck] at hspec
    rw [hspec]
    constructor
    · rintro ⟨r, hr, hrk, hrt⟩
      obtain ⟨req, hreq, hreqo⟩ := List.mem_map.1 hr
      exact ⟨p, hp, by rw [← hcp, hcid], req, hreq,
        by rw [hreqo]; exact hrk, by rw [hreqo]; exact hrt⟩
    · rintro ⟨q, hq, hqid, req, hreq, hreqk, hreqt⟩
      have hpq : p = q := by
        apply eq_of_mem_fst_eq h hp hq
        rw [← hcp, hcid, hqid]
      subst hpq
      exact ⟨req.opts, List.mem_map.2 ⟨req, hreq, rfl⟩, hreqk, hreqt⟩

/-! ## sendResponse (query_runner.go, lines 177-203) -/

/-- The message sent to one matching pending request when `sendResponse`
routes `resp`: the source builds `response\x7bid: resp.id, opts: req.opts,
metrics: q.filterMetricsFn(resp.metrics, req.opts.MetricsTypes),
err: resp.err\x7d`.  Note that the filter is applied to `resp.metrics`
unconditionally, also when `resp.err` is non-nil. -/
def routedMessage {M : Type} (filterMetricsFn : Option M → List MetricsType → Option M)
    (resp : Response M) (req : Request M) : Response M :=
  { id := resp.id, opts := req.opts,
    metrics := filterMetricsFn resp.metrics req.opts.MetricsTypes,
    err := resp.err }

/-- Slot lookup `q.requests[id]`: a missing key yields the zero value,
the empty slice. -/
def slotOf {M : Type} : Requests M → Int → List (Request M)
  | [], _ => []
  | p :: rest, id => if p.1 = id then p.2 else slotOf rest id

/-- Embedding of `sendResponse`: send the response to every pending
request in the slot of `resp.id` that it matches (one send per matching
request, recorded as a `(channel, message)` pair), collect the requests
it does not match into `newRequestsForID`, and store that list back,
deleting the key when it is empty.  The partition loop of the source is
rendered as the two filters. -/
def sendResponse {M : Type} (filterMetricsFn : Option M → List MetricsType → Option M)
    (requests : Requests M) (resp : Response M) :
    Requests M × List (Nat × Response M) :=
  let slot := slotOf requests resp.id
  let sends := (slot.filter fun req => resp.opts.matches req.opts).map
    fun req => (req.responseCh, routedMessage filterMetricsFn resp req)
  let newRequestsForID := slot.filter fun req => !(resp.opts.matches req.opts)
  let requests2 :=
    if newRequestsForID.isEmpty then requests.filter fun p => decide (p.1 ≠ resp.id)
    else requests.map fun p => if p.1 = resp.id then (p.1, newRequestsForID) else p
  (requests2, sends)

theorem slotOf_cons {M : Type} (p : Int × List (Request M))
    (rest : Requests M) (id : Int) :
    slotOf (p :: rest) id = if p.1 = id then p.2 else slotOf rest id := rfl

theorem slotOf_filter_ne {M : Type} (requests : Requests M) (id : Int) :
    slotOf (requests.filter fun p => decide (p.1 ≠ id)) id = [] := by
  induction requests with
  | nil => rfl
  | cons p rest ih =>
    rw [List.filter_cons]
    by_cases hp : p.1 = id
    · rw [if_neg (by simp [hp])]
      exact ih
    · rw [if_pos (by simp [hp]), slotOf_cons, if_neg hp]
      exact ih

theorem slotOf_filter_ne_other {M : Type} (requests : Requests M) {id id2 : Int}
    (h : id2 ≠ id) :
    slotOf (requests.filter fun p => decide (p.1 ≠ id)) id2 = slotOf requests id2 := by
  induction requests with
  | nil => rfl
  | cons p rest ih =>
    rw [List.filter_cons]
    by_cases hp : p.1 = id
    · have hp2 : p.1 ≠ id2 := by rw [hp]; exact fun h2 => h h2.symm
      rw [if_neg (by simp [hp]), slotOf_cons, if_neg hp2]
      exact ih
    · rw [if_pos (by simp [hp]), slotOf_cons, slotOf_cons]
      by_cases hp2 : p.1 = id2
      · rw [if_pos hp2, if_pos hp2]
      · rw [if_neg hp2, if_neg hp2]
        exact ih

theorem not_mem_keys_filter_ne {M : Type} (requests : Requests M) (id : Int) :
    id ∉ (requests.filter fun p => decide (p.1 ≠ id)).map Prod.fst := by
  intro hmem
  obtain ⟨p, hp, hfst⟩ := List.mem_map.1 hmem
  rw [List.mem_filter] at hp
  exact (by simpa using hp.2 : p.1 ≠ id) hfst

theorem slotOf_update_self {M : Type} {requests : Requests M} {id : Int}
    (v : List (Request M)) (h : id ∈ requests.map Prod.fst) :
    slotOf (requests.map fun p => if p.1 = id then (p.1, v) else p) id = v := by
  induction requests with
  | nil => simp at h
  | cons p rest ih =>
    rw [List.map_cons]
    by_cases hp : p.1 = id
    · rw [if_pos hp, slotOf_cons, if_pos hp]
    · rw [if_neg hp, slotOf_cons, if_neg hp]
      apply ih
      simp only [List.map_cons, List.mem_cons] at h
      rcases h with h | h
      · exact absurd h.symm hp
      · exact h

theorem slotOf_update_other {M : Type} (requests : Requests M) {id id2 : Int}
    (v : List (Request M)) (h : id2 ≠ id) :
    slotOf (requests.map fun p => if p.1 = id then (p.1, v) else p) id2 =
      slotOf requests id2 := by
  induction requests with
  | nil => rfl
  | cons p rest ih =>
    rw [List.map_cons, slotOf_cons]
    by_cases hp : p.1 = id
    · have hp2 : p.1 ≠ id2 := by rw [hp]; exact fun h2 => h h2.symm
      rw [if_pos hp, slotOf_cons, if_neg hp2, if_neg hp2]
      exact ih
    · rw [if_neg hp, slotOf_cons]
      by_cases hp2 : p.1 = id2
      · rw [if_pos hp2, if_pos hp2]
      · rw [if_neg hp2, if_neg hp2]
        exact ih

theorem slotOf_ne_nil_mem_keys {M : Type} {requests : Requests M} {id : Int}
    (h : slotOf requests id ≠ []) : id ∈ requests.map Prod.fst := by
  induction requests with
  | nil => exact absurd rfl h
  | cons p rest ih =>
    by_cases hp : p.1 = id
    · exact List.mem_cons.2 (Or.inl hp.symm)
    · rw [slotOf, if_neg hp] at h
      exact List.mem_cons.2 (Or.inr (ih h))

/-- C5: a dispatch result routed by `sendResponse` over any pending-queue
state sends exactly one message to each pending request in the slot of
its resource id that its options match, carrying the response metrics
projected by the filter to the metric types that request originally asked
for and carrying the error of the response; matched requests are removed
from the slot and unmatched ones kept unchanged, slots of other ids are
untouched, and when nothing remains in the slot the resource id key is
deleted from the queue. -/
theorem sendResponse_routes {M : Type}
    (f : Option M → List MetricsType → Option M)
    (requests : Requests M) (resp : Response M) :
    ((sendResponse f requests resp).2.length =
        ((slotOf requests resp.id).filter fun req => resp.opts.matches req.opts).length) ∧
      (∀ req ∈ slotOf requests resp.id, resp.opts.matches req.opts = true →
        (req.responseCh,
          { id := resp.id, opts := req.opts,
            metrics := f resp.metrics req.opts.MetricsTypes,
            err := resp.err : Response M }) ∈ (sendResponse f requests resp).2) ∧
      (∀ d ∈ (sendResponse f requests resp).2,
        ∃ req ∈ slotOf requests resp.id, resp.opts.matches req.opts = true ∧
          d = (req.responseCh,
            { id := resp.id, opts := req.opts,
              metrics := f resp.metrics req.opts.MetricsTypes,
              err := resp.err })) ∧
      (slotOf (sendResponse f requests resp).1 resp.id =
        (slotOf requests resp.id).filter fun req => !(resp.opts.matches req.opts)) ∧
      (∀ id2 : Int, id2 ≠ resp.id →
        slotOf (sendResponse f requests resp).1 id2 = slotOf requests id2) ∧
      (((slotOf requests resp.id).filter fun req => !(resp.opts.matches req.opts)) = [] →
        resp.id ∉ ((sendResponse f requests resp).1.map Prod.fst)) := by
  refine ⟨?_, ?_, ?_, ?_, ?_, ?_⟩
  · simp [sendResponse]
  · intro req hreq hmatch
    simp only [sendResponse]
    exact List.mem_map.2 ⟨req, List.mem_filter.2 ⟨hreq, hmatch⟩, rfl⟩
  · intro d hd
    simp only [sendResponse] at hd
    obtain ⟨req, hreq, hd2⟩ := List.mem_map.1 hd
    rw [List.mem_filter] at hreq
    exact ⟨req, hreq.1, hreq.2, hd2.symm⟩
  · simp only [sendResponse]
    split <;> rename_i hempty
    · rw [slotOf_filter_ne]
      rw [List.isEmpty_iff] at hempty
      exact hempty.symm
    · apply slotOf_update_self
      apply slotOf_ne_nil_mem_keys
      intro hnil
      rw [List.isEmpty_iff] at hempty
      exact hempty (by rw [hnil]; simp)
  · intro id2 hne
    simp only [sendResponse]
    split
    · exact slotOf_filter_ne_other requests hne
    · exact slotOf_update_other requests _ hne
  · intro hnil
    simp only [sendResponse]
    rw [if_pos (by rw [List.isEmpty_iff]; exact hnil)]
    exact not_mem_keys_filter_ne requests resp.id

/-! ## The full dispatch round (sendRequests, query_runner.go lines 126-172)

`sendRequests` computes the calls from the snapshot of the queue, runs
`apiRequestFn` for each and routes each result with `sendResponse`.
`iter.ForEach` runs the calls concurrently; they are folded here in call
order, and the stated theorems do not depend on that order. -/

/-- The response struct built by the dispatch loop for one call:
`response\x7bid: req.id, opts: req.opts, metrics: metrics, err: err\x7d`
where `(metrics, err)` is what `apiRequestFn` returned. -/
def dispatchResponse {M : Type}
    (apiRequestFn : Int → RequestOpts → Option M × Option String)
    (call : Int × RequestOpts) : Response M :=
  { id := call.1, opts := call.2,
    metrics := (apiRequestFn call.1 call.2).1,
    err := (apiRequestFn call.1 call.2).2 }

/-- One dispatch round: execute and route every computed call, collecting
all channel sends. -/
def sendRequests {M : Type}
    (apiRequestFn : Int → RequestOpts → Option M × Option String)
    (filterMetricsFn : Option M → List MetricsType → Option M)
    (requests : Requests M) : Requests M × List (Nat × Response M) :=
  (sendRequestsCalls requests).foldl
    (fun acc call =>
      let routed := sendResponse filterMetricsFn acc.1
        (dispatchResponse apiRequestFn call)
      (routed.1, acc.2 ++ routed.2))
    (requests, [])

/-! ## filterServerMetrics (datasource.go, lines 771-783) and the
server metrics data (hcloud.ServerMetrics, from the hcloud-go client)

Only the shape matters here: a header plus a TimeSeries map from series
name to sampled values.  Timestamps and the step are float64 in the
client; the theorems below never touch their values, so they are
modelled as Int. -/

/-- Model of `hcloud.ServerMetrics`. -/
structure ServerMetrics where
  start : Int
  stop : Int
  step : Int
  timeSeries : List (String × List (Int × String))
deriving DecidableEq

/-- Embedding of the `serverMetricsTypeSeries` table of `datasource.go`;
a metrics type outside the table yields the zero value of the map. -/
def serverMetricsTypeSeries (metricsType : MetricsType) : List String :=
  if metricsType = "cpu" then ["cpu"]
  else if metricsType = "disk-bandwidth" then
    ["disk.0.bandwidth.read", "disk.0.bandwidth.write"]
  else if metricsType = "disk-iops" then ["disk.0.iops.read", "disk.0.iops.write"]
  else if metricsType = "network-bandwidth" then
    ["network.0.bandwidth.in", "network.0.bandwidth.out"]
  else if metricsType = "network-pps" then ["network.0.pps.in", "network.0.pps.out"]
  else []

/-- Lookup of one series in a TimeSeries map (zero value on a miss). -/
def lookupSeries : List (String × List (Int × String)) → String → List (Int × String)
  | [], _ => []
  | p :: rest, name => if p.1 = name then p.2 else lookupSeries rest name

/-- Embedding of the body of `filterServerMetrics` after the dereference
`metricsCopy := *metrics`: copy the struct, reset TimeSeries to an empty
map, and copy over every series of every requested metrics type. -/
def filterServerMetricsValue (metrics : ServerMetrics)
    (metricsTypes : List MetricsType) : ServerMetrics :=
  { metrics with timeSeries :=
      ((metricsTypes.flatMap serverMetricsTypeSeries).map
        (fun series => (series, lookupSeries metrics.timeSeries series))) }

/-- Embedding of `filterServerMetrics` at the pointer level: the Go
function takes `metrics *hcloud.ServerMetrics` and dereferences it
unconditionally in its first statement, so a nil argument crashes the
program (nil-pointer dereference); the crash is modelled by `none`. -/
def filterServerMetrics (metrics : Option ServerMetrics)
    (metricsTypes : List MetricsType) : Option ServerMetrics :=
  match metrics with
  | none => none
  | some m => some (filterServerMetricsValue m metricsTypes)

/-! ## The receive loop of RequestMetrics (query_runner.go, lines 96-111) -/

/-- One observable event at the `select` of the receive loop of
`RequestMetrics`: either the cancellable context is done (carrying the
error that `ctx.Err()` reports), or a response arrives on the private
handoff channel of the call. -/
inductive LoopEvent (M : Type) where
  | contextDone (err : String)
  | recv (resp : Response M)
deriving DecidableEq

/-- Outcome of the receive loop: the result map on success, the received
error on an error response, the context error on cancellation, or
`blocked` when the incoming events are exhausted while the loop still
waits (the Go loop would block forever at the `select`). -/
inductive LoopOutcome (M : Type) where
  | ok (results : List (Int × Option M))
  | failed (err : String)
  | canceled (err : String)
  | blocked
deriving DecidableEq

/-- The map assignment `results[resp.id] = resp.metrics`: overwrite the
entry when the key exists, append it otherwise.  The map value is the
received metrics pointer (`*M`). -/
def insertResult {M : Type} (results : List (Int × Option M)) (id : Int)
    (metrics : Option M) : List (Int × Option M) :=
  if id ∈ results.map Prod.fst then
    results.map fun p => if p.1 = id then (p.1, metrics) else p
  else results ++ [(id, metrics)]

/-- Embedding of the receive loop of `RequestMetrics`: while fewer than
`len(ids)` results are present, select on context-done and the handoff
channel; a context-done returns `nil, ctx.Err()`; an error response
returns `nil, resp.err`; a success response is stored under its id.  The
guard `len(results) < len(ids)` of the source is evaluated before every
receive, which the two branches below both do. -/
def requestMetricsLoop {M : Type} (idsLen : Nat) :
    List (Int × Option M) → List (LoopEvent M) → LoopOutcome M
  | results, [] => if idsLen ≤ results.length then .ok results else .blocked
  | results, ev :: rest =>
    if idsLen ≤ results.length then .ok results
    else
      match ev with
      | .contextDone e => .canceled e
      | .recv resp =>
        match resp.err with
        | some e => .failed e
        | none => requestMetricsLoop idsLen (insertResult results resp.id resp.metrics) rest

theorem length_insertResult_ge {M : Type} (results : List (Int × Option M))
    (id : Int) (metrics : Option M) :
    results.length ≤ (insertResult results id metrics).length := by
  unfold insertResult
  split <;> simp

theorem keys_insertResult {M : Type} (results : List (Int × Option M))
    (id : Int) (metrics : Option M) :
    (insertResult results id metrics).map Prod.fst =
      if id ∈ results.map Prod.fst then results.map Prod.fst
      else results.map Prod.fst ++ [id] := by
  unfold insertResult
  split <;> rename_i hmem
  · rw [List.map_map]
    apply List.map_congr_left
    intro p _
    by_cases hp : p.1 = id
    · simp [Function.comp, hp]
    · simp [Function.comp, hp]
  · simp

theorem nodup_keys_insertResult {M : Type} {results : List (Int × Option M)}
    (h : (results.map Prod.fst).Nodup) (id : Int) (metrics : Option M) :
    ((insertResult results id metrics).map Prod.fst).Nodup := by
  rw [keys_insertResult]
  split <;> rename_i hmem
  · exact h
  · rw [List.nodup_append]
    refine ⟨h, List.nodup_singleton id, ?_⟩
    intro k hk hk2
    rw [List.mem_singleton] at hk2
    subst hk2
    exact hmem hk

theorem keys_insertResult_subset {M : Type} (results : List (Int × Option M))
    (id : Int) (metrics : Option M) {k : Int}
    (hk : k ∈ (insertResult results id metrics).map Prod.fst) :
    k ∈ results.map Prod.fst ∨ k = id := by
  rw [keys_insertResult] at hk
  revert hk
  split <;> rename_i hmem
  · exact Or.inl
  · intro hk
    rcases List.mem_append.1 hk with hk | hk
    · exact Or.inl hk
    · exact Or.inr (List.mem_singleton.1 hk)

theorem length_lt_of_nodup_subset_dup {l ids : List Int}
    (hn : l.Nodup) (hs : ∀ k ∈ l, k ∈ ids) (hdup : ¬ ids.Nodup) :
    l.length < ids.length := by
  have h1 : l.length ≤ ids.dedup.length :=
    (hn.subperm fun k hk => List.mem_dedup.2 (hs k hk)).length_le
  have h2 : ids.dedup.length < ids.length := by
    rcases Nat.lt_or_ge ids.dedup.length ids.length with h | h
    · exact h
    · have heq : ids.dedup = ids :=
        (List.dedup_sublist ids).eq_of_length
          (Nat.le_antisymm ((List.dedup_sublist ids).length_le) h)
      exact absurd (heq ▸ List.nodup_dedup ids) hdup
  omega

/-- C7: when the receive loop of RequestMetrics observes that the context
is done before all results have been received, it returns the
cancellation error of the context at once; the outcome does not depend on
the outstanding results (the remaining events). -/
theorem requestMetricsLoop_cancel {M : Type} (idsLen : Nat)
    (results : List (Int × Option M)) (e : String) (rest : List (LoopEvent M))
    (h : results.length < idsLen) :
    requestMetricsLoop idsLen results (.contextDone e :: rest) = .canceled e := by
  unfold requestMetricsLoop
  rw [if_neg (by omega)]

theorem foldl_insertResult_length_ge {M : Type} (rs : List (Response M))
    (results : List (Int × Option M)) :
    results.length ≤
      (rs.foldl (fun acc x => insertResult acc x.id x.metrics) results).length := by
  induction rs generalizing results with
  | nil => exact Nat.le_refl _
  | cons x rs ih =>
    exact Nat.le_trans (length_insertResult_ge results x.id x.metrics)
      (ih (insertResult results x.id x.metrics))

theorem requestMetricsLoop_error_aborts_from {M : Type} (idsLen : Nat)
    (rs : List (Response M)) (r : Response M) (e : String)
    (tail : List (LoopEvent M)) (results : List (Int × Option M))
    (hok : ∀ x ∈ rs, x.err = (none : Option String))
    (hlt : (rs.foldl (fun acc x => insertResult acc x.id x.metrics) results).length
        < idsLen)
    (herr : r.err = some e) :
    requestMetricsLoop idsLen results (rs.map .recv ++ .recv r :: tail) = .failed e := by
  induction rs generalizing results with
  | nil =>
    rw [List.map_nil, List.nil_append]
    unfold requestMetricsLoop
    rw [if_neg (by simpa using Nat.not_le_of_lt hlt)]
    simp only [herr]
  | cons x rs ih =>
    rw [List.map_cons, List.cons_append]
    have hfold : (rs.foldl (fun acc x => insertResult acc x.id x.metrics)
        (insertResult results x.id x.metrics)).length < idsLen := hlt
    have hres : results.length < idsLen :=
      Nat.lt_of_le_of_lt
        (Nat.le_trans (length_insertResult_ge results x.id x.metrics)
          (foldl_insertResult_length_ge rs _)) hfold
    unfold requestMetricsLoop
    rw [if_neg (Nat.not_le_of_lt hres)]
    show (match x.err with
      | some e => LoopOutcome.failed e
      | none => requestMetricsLoop idsLen (insertResult results x.id x.metrics)
          (rs.map LoopEvent.recv ++ LoopEvent.recv r :: tail)) = LoopOutcome.failed e
    rw [hok x (List.mem_cons_self x rs)]
    exact ih _ (fun y hy => hok y (List.mem_cons_of_mem x hy)) hfold

/-- C6: whenever the receive loop of RequestMetrics receives a response
that carries an error, the whole call returns that error and no result
map, even when success responses for other requested ids had been
received before; the prior successes are discarded. -/
theorem requestMetrics_error_aborts_call {M : Type} (idsLen : Nat)
    (rs : List (Response M)) (r : Response M) (e : String)
    (tail : List (LoopEvent M))
    (hok : ∀ x ∈ rs, x.err = (none : Option String))
    (hlt : (rs.foldl (fun acc x => insertResult acc x.id x.metrics)
        ([] : List (Int × Option M))).length < idsLen)
    (herr : r.err = some e) :
    requestMetricsLoop idsLen [] (rs.map .recv ++ .recv r :: tail) = .failed e :=
  requestMetricsLoop_error_aborts_from idsLen rs r e tail [] hok hlt herr

theorem requestMetricsLoop_failed_source {M : Type} (idsLen : Nat)
    (events : List (LoopEvent M)) (results : List (Int × Option M)) (e : String)
    (h : requestMetricsLoop idsLen results events = .failed e) :
    ∃ resp : Response M, .recv resp ∈ events ∧ resp.err = some e := by
  induction events generalizing results with
  | nil =>
    unfold requestMetricsLoop at h
    split at h <;> simp at h
  | cons ev rest ih =>
    unfold requestMetricsLoop at h
    split at h
    · simp at h
    · match ev with
      | .contextDone e2 => simp at h
      | .recv resp =>
        simp only at h
        match hr : resp.err with
        | some e2 =>
          rw [hr] at h
          simp only [LoopOutcome.failed.injEq] at h
          exact ⟨resp, List.mem_cons_self _ _, by rw [hr, h]⟩
        | none =>
          rw [hr] at h
          obtain ⟨resp2, hresp2, herr2⟩ := ih _ h
          exact ⟨resp2, List.mem_cons_of_mem _ hresp2, herr2⟩

theorem requestMetricsLoop_no_ok_aux {M : Type} (ids : List Int)
    (events : List (LoopEvent M)) (results : List (Int × Option M))
    (hkeys : (results.map Prod.fst).Nodup)
    (hsub : ∀ k ∈ results.map Prod.fst, k ∈ ids)
    (hevents : ∀ resp : Response M, .recv resp ∈ events → resp.id ∈ ids)
    (hdup : ¬ ids.Nodup) :
    ∀ m, requestMetricsLoop ids.length results events ≠ .ok m := by
  have hlt : results.length < ids.length := by
    have := length_lt_of_nodup_subset_dup hkeys hsub hdup
    simpa using this
  induction events generalizing results with
  | nil =>
    intro m
    unfold requestMetricsLoop
    rw [if_neg (by omega)]
    simp
  | cons ev rest ih =>
    intro m
    unfold requestMetricsLoop
    rw [if_neg (by omega)]
    match ev with
    | .contextDone e => simp
    | .recv resp =>
      simp only
      match hr : resp.err with
      | some e => simp
      | none =>
        have hkeys2 := nodup_keys_insertResult hkeys resp.id resp.metrics
        have hsub2 : ∀ k ∈ (insertResult results resp.id resp.metrics).map Prod.fst,
            k ∈ ids := by
          intro k hk
          rcases keys_insertResult_subset results resp.id resp.metrics hk with hk | hk
          · exact hsub k hk
          · subst hk
            exact hevents resp (List.mem_cons_self _ _)
        have hev2 : ∀ resp2 : Response M, .recv resp2 ∈ rest → resp2.id ∈ ids :=
          fun resp2 h2 => hevents resp2 (List.mem_cons_of_mem _ h2)
        exact ih _ hkeys2 hsub2 hev2
          (by simpa using length_lt_of_nodup_subset_dup hkeys2 hsub2 hdup) m

/-- C8: the value returned by the step-size helper is at least 1 for every
time range, interval and maximum point budget: any computed step below 1
is clamped to 1 by the final branch of the function. -/
theorem stepSize_ge_one (timeRange : TimeRange) (interval : Int) (maxDataPoints : Int) :
    1 ≤ stepSize timeRange interval maxDataPoints := by
  unfold stepSize
  dsimp only
  split <;> omega

/-- C2: evaluation of the code and of the spec formula at the failing
input of the claim: interval = 5s, range duration = 1000s, maxPoints =
100.  The claim (following the spec) demands 10; the code returns 5,
because its recompute condition compares the step itself, not the implied
point count, against the budget. -/
theorem stepSize_example_divergence :
    stepSize ⟨0, 1000000000000⟩ 5000000000 100 = 5 ∧
      stepSizeSpec ⟨0, 1000000000000⟩ 5000000000 100 = 10 ∧
      (5 : Int) ≠ 10 := by
  refine ⟨?_, ?_, by decide⟩ <;> decide

/-- C4: `r.matches other` holds exactly when the two time ranges agree
bit exactly on both endpoints, the steps agree, and every metric type
requested by `other` is contained in those of `r`; moreover `matches` is
reflexive. -/
theorem matches_iff_and_refl :
    (∀ r other : RequestOpts,
      r.matches other = true ↔
        (r.TimeRange.timeFrom = other.TimeRange.timeFrom ∧
          r.TimeRange.timeTo = other.TimeRange.timeTo ∧
          r.Step = other.Step ∧
          ∀ t ∈ other.MetricsTypes, t ∈ r.MetricsTypes)) ∧
      ∀ opts : RequestOpts, opts.matches opts = true := by
  constructor
  · intro r other
    simp [RequestOpts.matches, List.all_eq_true, and_assoc]
  · intro opts
    simp [RequestOpts.matches, List.all_eq_true]

/-! ## Concrete inputs for the witnesses -/

def exTimeRange : TimeRange := ⟨0, 1000000000000⟩

def exOptsCPU : RequestOpts :=
  { MetricsTypes := ["cpu"], TimeRange := exTimeRange, Step := 10 }

def exOptsDisk : RequestOpts :=
  { MetricsTypes := ["disk-iops"], TimeRange := exTimeRange, Step := 10 }

def exOptsBoth : RequestOpts :=
  { MetricsTypes := ["cpu", "disk-iops"], TimeRange := exTimeRange, Step := 10 }

def exReqCPU : Request Unit := { opts := exOptsCPU, responseCh := 0 }

def exReqDisk : Request Unit := { opts := exOptsDisk, responseCh := 1 }

def exQueue : Requests Unit := [(1, [exReqCPU, exReqDisk])]

def exRespBoth : Response Unit :=
  { id := 1, opts := exOptsBoth, metrics := some (), err := none }

/-- Witness for the uniqueRequests theorem at a concrete input: two
requests sharing the bucket produce the single merged output, whose
metric types are duplicate free and contain cpu exactly because an input
element of the bucket asked for it. -/
theorem uniqueRequests_dedup_union_witness :
    exOptsBoth ∈ uniqueRequests [exOptsCPU, exOptsDisk] ∧
      exOptsBoth.MetricsTypes.Nodup ∧
      (("cpu" : MetricsType) ∈ exOptsBoth.MetricsTypes ↔
        ∃ r ∈ [exOptsCPU, exOptsDisk], r.key = exOptsBoth.key ∧
          ("cpu" : MetricsType) ∈ r.MetricsTypes) := by
  have hmem : exOptsBoth ∈ uniqueRequests [exOptsCPU, exOptsDisk] := by decide
  have h := (uniqueRequests_dedup_union [exOptsCPU, exOptsDisk]).2.2 exOptsBoth hmem
  exact ⟨hmem, h.2.1, h.2.2 "cpu"⟩

/-- Witness for the coalescing theorem at a concrete queue with two
same-bucket pending requests under one resource id. -/
theorem sendRequests_coalesces_witness :
    ((exQueue.map Prod.fst).Nodup) ∧
      (sendRequestsCalls exQueue).countP
        (fun c => decide (c.1 = 1 ∧ c.2.key = exOptsCPU.key)) ≤ 1 :=
  ⟨by decide, (sendRequests_coalesces exQueue (by decide) 1 exOptsCPU.key).1⟩

/-- Witness for the sendResponse theorem at a concrete queue: the
response for the merged bucket is delivered to the cpu request with the
filter applied to the response metrics and the requested types of that
entry. -/
theorem sendResponse_routes_witness :
    (exReqCPU.responseCh,
      { id := exRespBoth.id, opts := exReqCPU.opts,
        metrics := (fun (m : Option Unit) (_ : List MetricsType) => m)
          exRespBoth.metrics exReqCPU.opts.MetricsTypes,
        err := exRespBoth.err : Response Unit }) ∈
      (sendResponse (fun m _ => m) exQueue exRespBoth).2 :=
  (sendResponse_routes (fun m _ => m) exQueue exRespBoth).2.1 exReqCPU
    (by decide) (by decide)

/-- Witness for the error-aborts theorem: one success response for id 1
has been received, then an error response arrives while the loop still
waits for id 2; the loop returns the error and no mapping. -/
theorem requestMetrics_error_aborts_call_witness :
    requestMetricsLoop (M := Unit) 2 []
        ([{ id := 1, opts := exOptsCPU, metrics := some (), err := none }].map
            LoopEvent.recv ++
          LoopEvent.recv
            { id := 2, opts := exOptsCPU, metrics := none, err := some "boom" } :: []) =
      LoopOutcome.failed "boom" :=
  requestMetrics_error_aborts_call 2
    [{ id := 1, opts := exOptsCPU, metrics := some (), err := none }]
    { id := 2, opts := exOptsCPU, metrics := none, err := some "boom" }
    "boom" [] (by decide) (by decide) (by decide)

/-- Witness for the cancellation theorem: a context-done event while the
single requested result is outstanding yields the context error. -/
theorem requestMetricsLoop_cancel_witness :
    requestMetricsLoop (M := Unit) 1 [] [LoopEvent.contextDone "context canceled"] =
      LoopOutcome.canceled "context canceled" :=
  requestMetricsLoop_cancel 1 [] "context canceled" [] (by decide)

/-! ## C9: the nil metrics pointer reaching the filter -/

/-- Modelled from the spec and the claim sources: the upstream client
call `client.Server.GetMetrics` is external to the repository; on failure
it returns a nil metrics pointer together with the error, and
`serverAPIRequestFn` returns both unchanged.  This api-request function
models that failure case. -/
def exFailingAPI : Int → RequestOpts → Option ServerMetrics × Option String :=
  fun _ _ => (none, some "rate limit exceeded")

/-- A pending-queue state with one pending server-metrics request. -/
def exPendingServer : Requests ServerMetrics :=
  [(1, [{ opts := exOptsCPU, responseCh := 0 }])]

/-- C9: evaluation of the dispatch round at the failing input.  When the
upstream call fails, the response routed to the matching pending entry is
built with `metrics = filterServerMetrics resp.metrics ...` although
`resp.metrics` is the nil pointer: the second conjunct replaces the
filter by an identity probe and delivers `none`, showing the argument
handed to the filter is nil, and the third conjunct shows
`filterServerMetrics` receives that nil pointer at its unconditional
dereference (modelled as `none`); the Go program crashes there with a
nil-pointer dereference.  This refutes the claim that the metrics pointer
passed to the filter is always non-nil. -/
theorem sendResponse_error_passes_nil_to_filter :
    (sendRequests exFailingAPI filterServerMetrics exPendingServer).2 =
      [(0, { id := 1, opts := exOptsCPU, metrics := none,
             err := some "rate limit exceeded" })] ∧
      (sendRequests exFailingAPI (fun m _ => m) exPendingServer).2 =
        [(0, { id := 1, opts := exOptsCPU, metrics := none,
               err := some "rate limit exceeded" })] ∧
      filterServerMetrics none ["cpu"] = none :=
  ⟨by decide, by decide, rfl⟩

/-! ## C10: duplicate ids in RequestMetrics -/

/-- C10 (amended): when the ids list passed to RequestMetrics contains a
duplicate and every response that can arrive on the private handoff
channel is for one of the ids, the receive loop never produces a success
mapping — responses collapse into at most one results-map entry per
distinct id while the success condition counts duplicates — and the call
can return only through a context cancellation or a received upstream
error (a failed outcome names the error of a received response). -/
theorem requestMetrics_dup_ids_no_success {M : Type} (ids : List Int)
    (events : List (LoopEvent M))
    (hevents : ∀ resp : Response M, LoopEvent.recv resp ∈ events → resp.id ∈ ids)
    (hdup : ¬ ids.Nodup) :
    (∀ m, requestMetricsLoop ids.length [] events ≠ LoopOutcome.ok m) ∧
      ∀ e, requestMetricsLoop ids.length [] events = LoopOutcome.failed e →
        ∃ resp : Response M, LoopEvent.recv resp ∈ events ∧ resp.err = some e :=
  ⟨requestMetricsLoop_no_ok_aux ids events [] (by simp) (by simp) hevents hdup,
    fun e h => requestMetricsLoop_failed_source ids.length events [] e h⟩

/-- The events of the witness run for the duplicate-ids theorem: one
success response for the duplicated id. -/
def exDupEvents : List (LoopEvent Unit) :=
  [LoopEvent.recv { id := 7, opts := exOptsCPU, metrics := some (), err := none }]

/-- Witness for the duplicate-ids theorem: with ids [7, 7] and one
received success response for id 7, the loop does not return the
singleton mapping. -/
theorem requestMetrics_dup_ids_no_success_witness :
    requestMetricsLoop (M := Unit) ([7, 7] : List Int).length [] exDupEvents ≠
      LoopOutcome.ok [((7 : Int), some ())] :=
  (requestMetrics_dup_ids_no_success [7, 7] exDupEvents
      (fun resp h => by
        rw [exDupEvents, List.mem_singleton] at h
        injection h with h2
        rw [h2]
        decide)
      (by decide)).1 [((7 : Int), some ())]

/-- C10, counterexample to the clause that with duplicate ids the call
returns only via context cancellation: with the duplicate ids list
[7, 7], a received error response makes the call return that upstream
error — a return that is neither a success mapping nor a context
cancellation. -/
theorem requestMetrics_dup_ids_error_counterexample :
    ¬ (([7, 7] : List Int).Nodup) ∧
      requestMetricsLoop (M := Unit) ([7, 7] : List Int).length []
          [LoopEvent.recv
            { id := 7, opts := exOptsCPU, metrics := none, err := some "boom" }] =
        LoopOutcome.failed "boom" :=
  ⟨by decide, by decide⟩

end Plugin
